import Mathlib

/-!
Verification of an intrusive reference-counted smart pointer
(`intrusive_ptr<T>` handle plus `intrusive_ref_counter<Derived>` mixin,
from `src/solution.h`).

The embedding is shallow:

* The mixin's atomic counter `std::atomic<unsigned int>` is a `Nat` kept
  below `W = 2^32` (a 32-bit `unsigned int`); `fetch_add` becomes
  `(c + 1) % W` and `fetch_sub(1)` becomes the unsigned wraparound
  decrement `if c = 0 then W - 1 else c - 1` (the theorem
  `dec_matches_mod_arith` below proves this equal to `(c + (W - 1)) % W`
  for every in-range `c`), with `dec` returning the pre-decrement value
  exactly as `counter.fetch_sub(1, acq_rel)` does.
* A counted object's lifetime is made observable through ghost fields:
  `destructs` counts how many times `delete static_cast<const Derived*>(p)`
  ran, and `releases1` counts how many calls of `intrusive_ptr_release`
  observed a pre-decrement value of exactly 1 (the branch that deletes).
* Raw pointers `T*` are `Option Addr` with `none` for `nullptr`; the heap
  is a map `Mem : Addr → ObjState` and the two freestanding protocol
  operations act on the pointee's state.
* Handle member functions become pure functions from (handle, memory) to
  (handle, memory). C++ identity of `this` and `&r` in the assignment
  operators' self-check `this != &r` is modeled by an explicit
  `same : Bool` argument in the memory model, and by index equality in
  the operation-sequence model `World` below, where every handle is a
  slot in a list and is referred to by its position.
* `World` tracks one counted object and any number of handle slots; a
  slot holds `true` when that handle points at the object and `false`
  when it is null.  A destroyed handle's slot stays in the list as an
  inert null slot (a null handle's destructor is a no-op, so the inert
  slot behaves exactly like a null handle for every later operation).
  The ghost counter `detached` counts references currently owned outside
  any handle, i.e. returned by `detach()` and not yet re-adopted.
-/

/-- `details::stored_type` is `unsigned int`; `W` is its modulus (32-bit). -/
def W : Nat := 2 ^ 32

/-- An address of a counted object; `none` in an `Option Addr` is `nullptr`. -/
abbrev Addr := Nat

/-- A raw `T*`: either `nullptr` or the address of a counted object. -/
abbrev Ptr := Option Addr

/-- The observable state of one object deriving from
`intrusive_ref_counter<Derived>`: its counter (the value of the
`std::atomic<unsigned int>` field), whether the object is still alive,
and two ghost fields: `destructs` = number of times
`delete static_cast<const Derived*>(p)` has run for it, and `releases1` =
number of `intrusive_ptr_release` calls on it that observed a
pre-decrement counter of exactly 1. -/
structure ObjState where
  counter : Nat
  alive : Bool
  destructs : Nat
  releases1 : Nat
deriving DecidableEq

/-- `use_count()`: `counter.load(std::memory_order_acquire)` — reads the
current counter value. -/
def ObjState.use_count (s : ObjState) : Nat := s.counter

/-- `inc()`: `counter.fetch_add(1, std::memory_order_relaxed)` on an
`unsigned int`, i.e. increment modulo `2^32`. -/
def ObjState.inc (s : ObjState) : ObjState :=
  { s with counter := (s.counter + 1) % W }

/-- `dec()`: `counter.fetch_sub(1, std::memory_order_acq_rel)` — unsigned
decrement (wrapping to `2^32 - 1` at 0, see `dec_matches_mod_arith`),
RETURNING THE PRE-DECREMENT VALUE. -/
def ObjState.dec (s : ObjState) : Nat × ObjState :=
  (s.counter, { s with counter := if s.counter = 0 then W - 1 else s.counter - 1 })

/-- `delete static_cast<const Derived*>(p)`: the object dies and its
(Derived) destructor runs once more. -/
def ObjState.deleteObj (s : ObjState) : ObjState :=
  { s with alive := false, destructs := s.destructs + 1 }

/-- `intrusive_ptr_add_ref(p)`: `p->inc()`. -/
def intrusive_ptr_add_ref (s : ObjState) : ObjState := s.inc

/-- `intrusive_ptr_release(p)`:
`if (p->dec() == 1) delete static_cast<const Derived*>(p);`
The ghost field `releases1` is bumped in exactly the branch that deletes. -/
def intrusive_ptr_release (s : ObjState) : ObjState :=
  let pre := (s.dec).1
  let s1 := (s.dec).2
  if pre = 1 then { s1.deleteObj with releases1 := s1.releases1 + 1 } else s1

/-- `intrusive_ref_counter()`: default construction of a fresh counted
object — `counter = 0` (default member initializer), object alive,
destructor never run. -/
def intrusive_ref_counter.mkDefault : ObjState :=
  { counter := 0, alive := true, destructs := 0, releases1 := 0 }

/-- `intrusive_ref_counter(const intrusive_ref_counter&)`: the copy
constructor's body is empty, so the new object's counter comes from the
default member initializer (`= 0`); nothing is read from the source. -/
def intrusive_ref_counter.copyCtor (_src : ObjState) : ObjState :=
  { counter := 0, alive := true, destructs := 0, releases1 := 0 }

/-- `operator=(const intrusive_ref_counter&)`: body is `return *this;` —
the assignee is returned unchanged and the const source is untouched; the
result pair is (assignee afterwards, source afterwards). -/
def intrusive_ref_counter.copyAssign (dst src : ObjState) : ObjState × ObjState :=
  (dst, src)

/-- The heap: object state at every address. -/
def Mem : Type := Addr → ObjState

/-- Apply `f` to the object stored at address `a`, leaving every other
address untouched. -/
def Mem.updateAt (m : Mem) (a : Addr) (f : ObjState → ObjState) : Mem :=
  fun x => if x = a then f (m x) else m x

/-- `intrusive_ptr_add_ref` on the pointee at address `a`. -/
def intrusive_ptr_add_ref_at (m : Mem) (a : Addr) : Mem :=
  m.updateAt a intrusive_ptr_add_ref

/-- `intrusive_ptr_release` on the pointee at address `a`. -/
def intrusive_ptr_release_at (m : Mem) (a : Addr) : Mem :=
  m.updateAt a intrusive_ptr_release

/-- `intrusive_ptr<T>` — one field: `T* obj_pointer = nullptr;`. -/
structure intrusive_ptr where
  obj_pointer : Ptr
deriving DecidableEq

/-- `intrusive_ptr() noexcept = default;` — null, no side effect. -/
def intrusive_ptr.mkDefault : intrusive_ptr := ⟨none⟩

/-- `intrusive_ptr(T* p, bool add_ref = true)`: stores `p`; then
`if (add_ref && obj_pointer != nullptr) intrusive_ptr_add_ref(obj_pointer);`. -/
def intrusive_ptr.mkRaw (p : Ptr) (add_ref : Bool) (m : Mem) : intrusive_ptr × Mem :=
  match add_ref, p with
  | true, some a => (⟨some a⟩, intrusive_ptr_add_ref_at m a)
  | _, _ => (⟨p⟩, m)

/-- `intrusive_ptr(intrusive_ptr const& r)`: stores `r.obj_pointer`; if it
is non-null, `intrusive_ptr_add_ref(obj_pointer);`. -/
def intrusive_ptr.copyCtor (r : intrusive_ptr) (m : Mem) : intrusive_ptr × Mem :=
  match r.obj_pointer with
  | some a => (⟨some a⟩, intrusive_ptr_add_ref_at m a)
  | none => (⟨none⟩, m)

/-- `intrusive_ptr(intrusive_ptr&& r)`: steals `r.obj_pointer` and sets
`r.obj_pointer = nullptr`; no protocol call.  Result: (new handle, moved-from
source, memory). -/
def intrusive_ptr.moveCtor (r : intrusive_ptr) (m : Mem) :
    (intrusive_ptr × intrusive_ptr) × Mem :=
  ((⟨r.obj_pointer⟩, ⟨none⟩), m)

/-- `~intrusive_ptr()`: `if (obj_pointer != nullptr) intrusive_ptr_release(obj_pointer);`. -/
def intrusive_ptr.dtor (h : intrusive_ptr) (m : Mem) : Mem :=
  match h.obj_pointer with
  | some a => intrusive_ptr_release_at m a
  | none => m

/-- `void swap(intrusive_ptr& b)`: `std::swap(b.obj_pointer, this->obj_pointer);`.
`(a.swap b)` returns (receiver `a` afterwards, argument `b` afterwards). -/
def intrusive_ptr.swap (a b : intrusive_ptr) : intrusive_ptr × intrusive_ptr :=
  (⟨b.obj_pointer⟩, ⟨a.obj_pointer⟩)

/-- `operator=(intrusive_ptr const& r)`: `if (this != &r) intrusive_ptr(r).swap(*this);`
`same` models the identity test `this == &r`.  The copy-constructed
temporary swaps with `*this` and is then destroyed at the end of the full
expression, releasing the old referent. -/
def intrusive_ptr.assignCopy (same : Bool) (this r : intrusive_ptr) (m : Mem) :
    intrusive_ptr × Mem :=
  if same then (this, m)
  else
    let tm := intrusive_ptr.copyCtor r m
    let st := intrusive_ptr.swap tm.1 this
    (st.2, intrusive_ptr.dtor st.1 tm.2)

/-- `operator=(intrusive_ptr&& r)`: `if (this != &r) intrusive_ptr(std::move(r)).swap(*this);`
`same` models `this == &r`.  Result: (`*this` afterwards, `r` afterwards, memory). -/
def intrusive_ptr.assignMove (same : Bool) (this r : intrusive_ptr) (m : Mem) :
    (intrusive_ptr × intrusive_ptr) × Mem :=
  if same then ((this, r), m)
  else
    let tr := intrusive_ptr.moveCtor r m
    let st := intrusive_ptr.swap tr.1.1 this
    ((st.2, tr.1.2), intrusive_ptr.dtor st.1 tr.2)

/-- `operator=(T* r)`: `intrusive_ptr(r).swap(*this);` (no self check;
the raw-pointer constructor defaults `add_ref` to true). -/
def intrusive_ptr.assignPtr (this : intrusive_ptr) (r : Ptr) (m : Mem) :
    intrusive_ptr × Mem :=
  let tm := intrusive_ptr.mkRaw r true m
  let st := intrusive_ptr.swap tm.1 this
  (st.2, intrusive_ptr.dtor st.1 tm.2)

/-- `reset()`: `intrusive_ptr().swap(*this);`. -/
def intrusive_ptr.reset (this : intrusive_ptr) (m : Mem) : intrusive_ptr × Mem :=
  let st := intrusive_ptr.swap intrusive_ptr.mkDefault this
  (st.2, intrusive_ptr.dtor st.1 m)

/-- `reset(T* r)`: `intrusive_ptr(r).swap(*this);`. -/
def intrusive_ptr.resetPtr (this : intrusive_ptr) (r : Ptr) (m : Mem) :
    intrusive_ptr × Mem :=
  let tm := intrusive_ptr.mkRaw r true m
  let st := intrusive_ptr.swap tm.1 this
  (st.2, intrusive_ptr.dtor st.1 tm.2)

/-- `reset(T* r, bool add_ref)`: `intrusive_ptr(r, add_ref).swap(*this);`. -/
def intrusive_ptr.resetPtrAddRef (this : intrusive_ptr) (r : Ptr) (add_ref : Bool)
    (m : Mem) : intrusive_ptr × Mem :=
  let tm := intrusive_ptr.mkRaw r add_ref m
  let st := intrusive_ptr.swap tm.1 this
  (st.2, intrusive_ptr.dtor st.1 tm.2)

/-- `T* get() const noexcept`: returns the raw address, no side effect. -/
def intrusive_ptr.get (h : intrusive_ptr) : Ptr := h.obj_pointer

/-- `T* detach() noexcept`: returns the current raw address and nulls the
handle WITHOUT releasing.  Result: (returned pointer, handle afterwards). -/
def intrusive_ptr.detach (h : intrusive_ptr) : Ptr × intrusive_ptr :=
  (h.obj_pointer, ⟨none⟩)

/-! ### Operation-sequence model: one counted object, many handle slots -/

/-- Number of `true` entries — how many handle slots point at the object. -/
def countTrue : List Bool → Nat
  | [] => 0
  | b :: t => (if b then 1 else 0) + countTrue t

/-- Slot lookup; out-of-range slots read as `false` (null handle). -/
def nthB : List Bool → Nat → Bool
  | [], _ => false
  | b :: _, 0 => b
  | _ :: t, i + 1 => nthB t i

/-- Slot update; out-of-range updates are dropped. -/
def setB : List Bool → Nat → Bool → List Bool
  | [], _, _ => []
  | _ :: t, 0, b => b :: t
  | a :: t, i + 1, b => a :: setB t i b

/-- Global state for a sequence of handle operations on a single counted
object: the handle slots, the object, and the ghost count of references
owned outside any handle (produced by `detach`). -/
structure World where
  handles : List Bool
  obj : ObjState
  detached : Nat
deriving DecidableEq

/-- One handle operation, mirroring the C++ member functions; handles are
named by their slot index. -/
inductive Op where
  | newHandle
  | adopt
  | copyFrom (i : Nat)
  | moveFrom (i : Nat)
  | assignCopy (i j : Nat)
  | assignMove (i j : Nat)
  | reset (i : Nat)
  | resetObj (i : Nat)
  | detach (i : Nat)
  | destroy (i : Nat)
deriving DecidableEq

/-- Execute one operation.

* `newHandle` — `intrusive_ptr(p, true)` on the live object: new slot, add_ref.
* `adopt` — `intrusive_ptr(p, false)`: new slot adopting a detached reference.
* `copyFrom i` — copy constructor from slot `i`, appended as a new slot.
* `moveFrom i` — move constructor from slot `i` (source nulled), appended.
* `assignCopy i j` — `handles[i] = handles[j]`: self-check `this != &r`,
  then copy-construct a temporary from `j` (add_ref if non-null), swap it
  into `i`, destroy the temporary (release of `i`'s old referent).
* `assignMove i j` — `handles[i] = std::move(handles[j])`: self-check,
  steal `j`'s value into a temporary, swap into `i`, destroy the
  temporary (release of `i`'s old referent); no add_ref anywhere.
* `reset i` — `handles[i].reset()`: slot becomes null, old referent released.
* `resetObj i` — `handles[i].reset(p)` with `p` the (live) object:
  temporary with add_ref, swap, temporary's destructor releases the old
  referent.
* `detach i` — slot nulled, no release; the reference is now owned by the
  caller (`detached` grows when the slot was non-null).
* `destroy i` — run slot `i`'s destructor (release if non-null); the slot
  stays as an inert null slot. -/
def World.step (w : World) (op : Op) : World :=
  match op with
  | .newHandle =>
      { w with handles := w.handles ++ [true], obj := intrusive_ptr_add_ref w.obj }
  | .adopt =>
      { w with handles := w.handles ++ [true], detached := w.detached - 1 }
  | .copyFrom i =>
      let src := nthB w.handles i
      { w with handles := w.handles ++ [src],
               obj := if src then intrusive_ptr_add_ref w.obj else w.obj }
  | .moveFrom i =>
      let src := nthB w.handles i
      { w with handles := (setB w.handles i false) ++ [src] }
  | .assignCopy i j =>
      if i = j then w
      else
        let src := nthB w.handles j
        let old := nthB w.handles i
        let o1 := if src then intrusive_ptr_add_ref w.obj else w.obj
        { w with handles := setB w.handles i src,
                 obj := if old then intrusive_ptr_release o1 else o1 }
  | .assignMove i j =>
      if i = j then w
      else
        let src := nthB w.handles j
        let old := nthB w.handles i
        { w with handles := setB (setB w.handles j false) i src,
                 obj := if old then intrusive_ptr_release w.obj else w.obj }
  | .reset i =>
      let old := nthB w.handles i
      { w with handles := setB w.handles i false,
               obj := if old then intrusive_ptr_release w.obj else w.obj }
  | .resetObj i =>
      let old := nthB w.handles i
      let o1 := intrusive_ptr_add_ref w.obj
      { w with handles := setB w.handles i true,
               obj := if old then intrusive_ptr_release o1 else o1 }
  | .detach i =>
      let src := nthB w.handles i
      { w with handles := setB w.handles i false,
               detached := w.detached + (if src then 1 else 0) }
  | .destroy i =>
      let old := nthB w.handles i
      { w with handles := setB w.handles i false,
               obj := if old then intrusive_ptr_release w.obj else w.obj }

/-- Well-formedness of one operation: slot indices exist, raw-pointer
construction targets a live object (no resurrection of a deleted object),
and `adopt` only re-adopts a reference that was actually detached. -/
def World.wfOp (w : World) (op : Op) : Bool :=
  match op with
  | .newHandle => w.obj.alive
  | .adopt => decide (0 < w.detached)
  | .copyFrom i => decide (i < w.handles.length)
  | .moveFrom i => decide (i < w.handles.length)
  | .assignCopy i j => decide (i < w.handles.length) && decide (j < w.handles.length)
  | .assignMove i j => decide (i < w.handles.length) && decide (j < w.handles.length)
  | .reset i => decide (i < w.handles.length)
  | .resetObj i => decide (i < w.handles.length) && w.obj.alive
  | .detach i => decide (i < w.handles.length)
  | .destroy i => decide (i < w.handles.length)

/-- Well-formedness of an operation sequence, step by step. -/
def World.wfSeq (w : World) : List Op → Bool
  | [] => true
  | op :: rest => w.wfOp op && (w.step op).wfSeq rest

/-- Run a sequence of operations. -/
def World.exec (w : World) : List Op → World
  | [] => w
  | op :: rest => (w.step op).exec rest

/-- How many handle slots point at the object. -/
def World.pointing (w : World) : Nat := countTrue w.handles

/-- Total outstanding references: pointing handles plus detached ownerships. -/
def World.refs (w : World) : Nat := w.pointing + w.detached

/-- The world right after `Derived d;`-style construction of the counted
object: no handles, counter 0, nothing detached. -/
def World.init : World :=
  { handles := [], obj := intrusive_ref_counter.mkDefault, detached := 0 }

/-- The state invariant: either the object is alive, its destructor has
never run, no release ever observed 1, and the counter equals the number
of outstanding references; or the object has been deleted exactly once
(by the one release that observed 1) and no references remain. -/
def World.Inv (w : World) : Prop :=
  (w.obj.destructs = 0 ∧ w.obj.releases1 = 0 ∧ w.obj.alive = true ∧
    w.obj.counter = w.refs)
  ∨ (w.obj.destructs = 1 ∧ w.obj.releases1 = 1 ∧ w.obj.alive = false ∧
    w.obj.counter = 0 ∧ w.refs = 0)

/-- The C8 script: one handle on the fresh object, then `n` copies of it. -/
def copyScript (n : Nat) : List Op :=
  Op.newHandle :: List.replicate n (Op.copyFrom 0)

/-- Tear down `k` of the copies, highest slot first, using `d` to destroy
a slot (`Op.destroy` or `Op.reset`). -/
def tearDown (d : Nat → Op) (n k : Nat) : List Op :=
  (List.range k).map (fun t => d (n - t))

/-! ### Basic lemmas about the embedded operations -/

/-- Sanity check: the branching unsigned decrement used in `ObjState.dec`
is exactly `fetch_sub(1)` modulo `2^32` for every in-range counter value. -/
theorem dec_matches_mod_arith (s : ObjState) (h : s.counter < W) :
    ((s.dec).2).counter = (s.counter + (W - 1)) % W := by
  rcases Nat.eq_zero_or_pos s.counter with h0 | h0
  · have h2 : ((s.dec).2).counter = W - 1 := by simp [ObjState.dec, h0]
    rw [h2, h0, Nat.zero_add, Nat.mod_eq_of_lt (Nat.sub_lt (by norm_num [W]) Nat.one_pos)]
  · have hne : s.counter ≠ 0 := Nat.pos_iff_ne_zero.mp h0
    simp only [ObjState.dec]
    rw [if_neg hne]
    have h1 : s.counter + (W - 1) = (s.counter - 1) + W := by omega
    rw [h1, Nat.add_mod_right, Nat.mod_eq_of_lt (by omega)]

theorem add_ref_spec (s : ObjState) (h : s.counter + 1 < W) :
    intrusive_ptr_add_ref s = { s with counter := s.counter + 1 } := by
  simp only [intrusive_ptr_add_ref, ObjState.inc]
  rw [Nat.mod_eq_of_lt h]

theorem release_spec_big (s : ObjState) (h : 2 ≤ s.counter) :
    intrusive_ptr_release s = { s with counter := s.counter - 1 } := by
  simp only [intrusive_ptr_release, ObjState.dec]
  rw [if_neg (by omega : ¬ s.counter = 1), if_neg (by omega : ¬ s.counter = 0)]

theorem release_spec_one (s : ObjState) (h : s.counter = 1) :
    intrusive_ptr_release s =
      { counter := 0, alive := false, destructs := s.destructs + 1,
        releases1 := s.releases1 + 1 } := by
  simp only [intrusive_ptr_release, ObjState.dec, ObjState.deleteObj]
  rw [if_pos h, if_neg (by omega : ¬ s.counter = 0)]
  simp [h]

/-! ### List-slot lemmas -/

theorem length_setB (l : List Bool) (i : Nat) (b : Bool) :
    (setB l i b).length = l.length := by
  induction l generalizing i with
  | nil => rfl
  | cons a t ih =>
      cases i with
      | zero => rfl
      | succ i => simp [setB, ih]

theorem countTrue_append (l : List Bool) (b : Bool) :
    countTrue (l ++ [b]) = countTrue l + (if b then 1 else 0) := by
  induction l with
  | nil => simp [countTrue]
  | cons a t ih => simp [countTrue, ih]; omega

theorem countTrue_setB (l : List Bool) (i : Nat) (b : Bool) (h : i < l.length) :
    countTrue (setB l i b) + (if nthB l i then 1 else 0)
      = countTrue l + (if b then 1 else 0) := by
  induction l generalizing i with
  | nil => simp at h
  | cons a t ih =>
      cases i with
      | zero => simp [setB, nthB, countTrue]; omega
      | succ i =>
          simp only [setB, nthB, countTrue]
          have := ih i (by simpa using h)
          omega

theorem nthB_true_le_countTrue (l : List Bool) (i : Nat) (h : nthB l i = true) :
    1 ≤ countTrue l := by
  induction l generalizing i with
  | nil => simp [nthB] at h
  | cons a t ih =>
      cases i with
      | zero => simp [nthB] at h; simp [countTrue, h]
      | succ i =>
          have := ih i h
          simp [countTrue]
          omega

theorem nthB_false_of_countTrue_zero (l : List Bool) (i : Nat)
    (h : countTrue l = 0) : nthB l i = false := by
  induction l generalizing i with
  | nil => rfl
  | cons a t ih =>
      simp only [countTrue] at h
      cases i with
      | zero =>
          cases a with
          | false => rfl
          | true => simp at h
      | succ i => exact ih i (by omega)

theorem nthB_setB_ne (l : List Bool) (i j : Nat) (b : Bool) (hij : i ≠ j) :
    nthB (setB l j b) i = nthB l i := by
  induction l generalizing i j with
  | nil => rfl
  | cons a t ih =>
      cases j with
      | zero =>
          cases i with
          | zero => exact absurd rfl hij
          | succ i => rfl
      | succ j =>
          cases i with
          | zero => rfl
          | succ i => exact ih i j (by omega)

/-! ### Invariant preservation, one operation at a time -/

theorem step_inv_newHandle (w : World) (hInv : w.Inv)
    (hwf : w.wfOp Op.newHandle = true) (hroom : w.refs + 1 < W) :
    (w.step Op.newHandle).Inv ∧ (w.step Op.newHandle).refs ≤ w.refs + 1 := by
  simp only [World.wfOp] at hwf
  rcases hInv with ⟨hd, hr, ha, hc⟩ | ⟨hd, hr, ha, hc, h0⟩
  · have hcadd : w.obj.counter + 1 < W := by omega
    simp only [World.step, add_ref_spec w.obj hcadd]
    constructor
    · left
      refine ⟨hd, hr, ha, ?_⟩
      simp only [World.refs, World.pointing] at hc
      simp [World.refs, World.pointing, countTrue_append] <;> omega
    · simp [World.refs, World.pointing, countTrue_append] <;> omega
  · rw [ha] at hwf
    exact absurd hwf (by simp)

theorem step_inv_adopt (w : World) (hInv : w.Inv)
    (hwf : w.wfOp Op.adopt = true) (hroom : w.refs + 1 < W) :
    (w.step Op.adopt).Inv ∧ (w.step Op.adopt).refs ≤ w.refs + 1 := by
  simp only [World.wfOp, decide_eq_true_eq] at hwf
  rcases hInv with ⟨hd, hr, ha, hc⟩ | ⟨hd, hr, ha, hc, h0⟩
  · simp only [World.step]
    constructor
    · left
      refine ⟨hd, hr, ha, ?_⟩
      simp only [World.refs, World.pointing] at hc
      simp [World.refs, World.pointing, countTrue_append] <;> omega
    · simp [World.refs, World.pointing, countTrue_append] <;> omega
  · simp only [World.refs] at h0
    omega

theorem step_inv_copyFrom (w : World) (i : Nat) (hInv : w.Inv)
    (hwf : w.wfOp (Op.copyFrom i) = true) (hroom : w.refs + 1 < W) :
    (w.step (Op.copyFrom i)).Inv ∧ (w.step (Op.copyFrom i)).refs ≤ w.refs + 1 := by
  cases hsrc : nthB w.handles i with
  | false =>
      constructor
      · rcases hInv with ⟨hd, hr, ha, hc⟩ | ⟨hd, hr, ha, hc, h0⟩
        · left
          refine ⟨?_, ?_, ?_, ?_⟩ <;>
            simp only [World.step, hsrc] <;>
            simp [World.refs, World.pointing, countTrue_append, hd, hr, ha] <;>
            (simp only [World.refs, World.pointing] at hc; omega)
        · right
          refine ⟨?_, ?_, ?_, ?_, ?_⟩ <;>
            simp only [World.step, hsrc] <;>
            simp [World.refs, World.pointing, countTrue_append, hd, hr, ha, hc] <;>
            (simp only [World.refs, World.pointing] at h0; omega)
      · simp only [World.step, hsrc]
        simp [World.refs, World.pointing, countTrue_append] <;> omega
  | true =>
      have hP : 1 ≤ countTrue w.handles := nthB_true_le_countTrue _ _ hsrc
      rcases hInv with ⟨hd, hr, ha, hc⟩ | ⟨hd, hr, ha, hc, h0⟩
      · have hcadd : w.obj.counter + 1 < W := by omega
        constructor
        · left
          refine ⟨?_, ?_, ?_, ?_⟩ <;>
            simp only [World.step, hsrc, ite_true, add_ref_spec w.obj hcadd] <;>
            simp [World.refs, World.pointing, countTrue_append, hd, hr, ha] <;>
            (simp only [World.refs, World.pointing] at hc; omega)
        · simp only [World.step, hsrc, ite_true, add_ref_spec w.obj hcadd]
          simp [World.refs, World.pointing, countTrue_append] <;> omega
      · exfalso
        simp only [World.refs, World.pointing] at h0
        omega

theorem step_inv_moveFrom (w : World) (i : Nat) (hInv : w.Inv)
    (hwf : w.wfOp (Op.moveFrom i) = true) (_hroom : w.refs + 1 < W) :
    (w.step (Op.moveFrom i)).Inv ∧ (w.step (Op.moveFrom i)).refs ≤ w.refs + 1 := by
  simp only [World.wfOp, decide_eq_true_eq] at hwf
  have hcount := countTrue_setB w.handles i false hwf
  have hptg : countTrue ((setB w.handles i false) ++ [nthB w.handles i])
      = countTrue w.handles := by
    rw [countTrue_append]
    cases h : nthB w.handles i <;> simp [h] at hcount ⊢ <;> omega
  simp only [World.step]
  constructor
  · rcases hInv with ⟨hd, hr, ha, hc⟩ | ⟨hd, hr, ha, hc, h0⟩
    · left
      refine ⟨hd, hr, ha, ?_⟩
      simp only [World.refs, World.pointing, hptg] at hc ⊢
      exact hc
    · right
      refine ⟨hd, hr, ha, hc, ?_⟩
      simp only [World.refs, World.pointing, hptg] at h0 ⊢
      exact h0
  · simp only [World.refs, World.pointing, hptg]
    omega

theorem step_inv_detach (w : World) (i : Nat) (hInv : w.Inv)
    (hwf : w.wfOp (Op.detach i) = true) (_hroom : w.refs + 1 < W) :
    (w.step (Op.detach i)).Inv ∧ (w.step (Op.detach i)).refs ≤ w.refs + 1 := by
  simp only [World.wfOp, decide_eq_true_eq] at hwf
  have hcount := countTrue_setB w.handles i false hwf
  have hrefs : (w.step (Op.detach i)).refs = w.refs := by
    simp only [World.step, World.refs, World.pointing]
    cases h : nthB w.handles i <;> simp [h] at hcount ⊢ <;> omega
  constructor
  · rcases hInv with ⟨hd, hr, ha, hc⟩ | ⟨hd, hr, ha, hc, h0⟩
    · left
      refine ⟨hd, hr, ha, ?_⟩
      rw [hrefs]
      simpa only [World.step] using hc
    · right
      refine ⟨hd, hr, ha, hc, ?_⟩
      rw [hrefs]
      exact h0
  · omega

theorem step_inv_destroy (w : World) (i : Nat) (hInv : w.Inv)
    (hwf : w.wfOp (Op.destroy i) = true) (_hroom : w.refs + 1 < W) :
    (w.step (Op.destroy i)).Inv ∧ (w.step (Op.destroy i)).refs ≤ w.refs + 1 := by
  simp only [World.wfOp, decide_eq_true_eq] at hwf
  have hcount := countTrue_setB w.handles i false hwf
  cases hold : nthB w.handles i with
  | false =>
      simp [hold] at hcount
      constructor
      · rcases hInv with ⟨hd, hr, ha, hc⟩ | ⟨hd, hr, ha, hc, h0⟩
        · left
          refine ⟨?_, ?_, ?_, ?_⟩ <;>
            simp [World.step, hold, World.refs, World.pointing, hd, hr, ha] <;>
            (simp only [World.refs, World.pointing] at hc; omega)
        · right
          refine ⟨?_, ?_, ?_, ?_, ?_⟩ <;>
            simp [World.step, hold, World.refs, World.pointing, hd, hr, ha, hc] <;>
            (simp only [World.refs, World.pointing] at h0; omega)
      · simp [World.step, hold, World.refs, World.pointing]
        simp only [World.refs, World.pointing] at *
        omega
  | true =>
      simp [hold] at hcount
      have hP : 1 ≤ countTrue w.handles := nthB_true_le_countTrue _ _ hold
      rcases hInv with ⟨hd, hr, ha, hc⟩ | ⟨hd, hr, ha, hc, h0⟩
      · rcases Nat.lt_or_ge w.refs 2 with h2 | h2
        · -- the last reference: the release observes 1 and deletes
          have h1 : w.refs = 1 := by
            simp only [World.refs, World.pointing] at *
            omega
          have hrel := release_spec_one w.obj (by omega)
          constructor
          · right
            refine ⟨?_, ?_, ?_, ?_, ?_⟩ <;>
              simp [World.step, hold, hrel, hd, hr, World.refs, World.pointing] <;>
              (simp only [World.refs, World.pointing] at h1; omega)
          · simp [World.step, hold, World.refs, World.pointing]
            simp only [World.refs, World.pointing] at *
            omega
        · -- not the last reference: only the decrement happens
          have hrel := release_spec_big w.obj (by omega)
          constructor
          · left
            refine ⟨?_, ?_, ?_, ?_⟩ <;>
              simp [World.step, hold, hrel, hd, hr, ha, World.refs, World.pointing] <;>
              (simp only [World.refs, World.pointing] at hc h2; omega)
          · simp [World.step, hold, World.refs, World.pointing]
            simp only [World.refs, World.pointing] at *
            omega
      · exfalso
        simp only [World.refs, World.pointing] at h0
        omega

theorem step_reset_eq_destroy (w : World) (i : Nat) :
    w.step (Op.reset i) = w.step (Op.destroy i) := rfl

theorem step_inv_reset (w : World) (i : Nat) (hInv : w.Inv)
    (hwf : w.wfOp (Op.reset i) = true) (hroom : w.refs + 1 < W) :
    (w.step (Op.reset i)).Inv ∧ (w.step (Op.reset i)).refs ≤ w.refs + 1 := by
  rw [step_reset_eq_destroy]
  exact step_inv_destroy w i hInv hwf hroom

theorem step_inv_resetObj (w : World) (i : Nat) (hInv : w.Inv)
    (hwf : w.wfOp (Op.resetObj i) = true) (hroom : w.refs + 1 < W) :
    (w.step (Op.resetObj i)).Inv ∧ (w.step (Op.resetObj i)).refs ≤ w.refs + 1 := by
  simp only [World.wfOp, Bool.and_eq_true, decide_eq_true_eq] at hwf
  obtain ⟨hlen, halive⟩ := hwf
  rcases hInv with ⟨hd, hr, ha, hc⟩ | ⟨hd, hr, ha, hc, h0⟩
  · have hcadd : w.obj.counter + 1 < W := by omega
    have hinc := add_ref_spec w.obj hcadd
    have hcount := countTrue_setB w.handles i true hlen
    cases hold : nthB w.handles i with
    | false =>
        simp [hold] at hcount
        constructor
        · left
          refine ⟨?_, ?_, ?_, ?_⟩ <;>
            simp [World.step, hold, hinc, World.refs, World.pointing, hd, hr, ha] <;>
            (simp only [World.refs, World.pointing] at hc; omega)
        · simp [World.step, hold, hinc, World.refs, World.pointing]
          simp only [World.refs, World.pointing] at *
          omega
    | true =>
        simp [hold] at hcount
        have hP : 1 ≤ countTrue w.handles := nthB_true_le_countTrue _ _ hold
        have hrel : intrusive_ptr_release (intrusive_ptr_add_ref w.obj)
            = { w.obj with counter := w.obj.counter } := by
          rw [hinc]
          have h2 : 2 ≤ w.obj.counter + 1 := by
            simp only [World.refs, World.pointing] at hc
            omega
          rw [release_spec_big _ h2]
          simp
        constructor
        · left
          refine ⟨?_, ?_, ?_, ?_⟩ <;>
            simp [World.step, hold, hrel, World.refs, World.pointing, hd, hr, ha] <;>
            (simp only [World.refs, World.pointing] at hc; omega)
        · simp [World.step, hold, hrel, World.refs, World.pointing]
          simp only [World.refs, World.pointing] at *
          omega
  · rw [ha] at halive
    exact absurd halive (by simp)

theorem step_inv_assignCopy (w : World) (i j : Nat) (hInv : w.Inv)
    (hwf : w.wfOp (Op.assignCopy i j) = true) (hroom : w.refs + 1 < W) :
    (w.step (Op.assignCopy i j)).Inv ∧
      (w.step (Op.assignCopy i j)).refs ≤ w.refs + 1 := by
  simp only [World.wfOp, Bool.and_eq_true, decide_eq_true_eq] at hwf
  obtain ⟨hleni, hlenj⟩ := hwf
  by_cases hij : i = j
  · simp only [World.step, if_pos hij]
    exact ⟨hInv, by omega⟩
  · cases hsrc : nthB w.handles j with
    | false =>
        cases hold : nthB w.handles i with
        | false =>
            have hcount := countTrue_setB w.handles i false hleni
            simp [hold] at hcount
            constructor
            · rcases hInv with ⟨hd, hr, ha, hc⟩ | ⟨hd, hr, ha, hc, h0⟩
              · left
                refine ⟨?_, ?_, ?_, ?_⟩ <;>
                  simp [World.step, if_neg hij, hsrc, hold, World.refs,
                    World.pointing, hd, hr, ha, hcount] <;>
                  (simp only [World.refs, World.pointing] at hc; omega)
              · right
                refine ⟨?_, ?_, ?_, ?_, ?_⟩ <;>
                  simp [World.step, if_neg hij, hsrc, hold, World.refs,
                    World.pointing, hd, hr, ha, hc, hcount] <;>
                  (simp only [World.refs, World.pointing] at h0; omega)
            · simp [World.step, if_neg hij, hsrc, hold, World.refs, World.pointing]
              simp only [World.refs, World.pointing] at *
              omega
        | true =>
            have hcount := countTrue_setB w.handles i false hleni
            simp [hold] at hcount
            have hP : 1 ≤ countTrue w.handles := nthB_true_le_countTrue _ _ hold
            rcases hInv with ⟨hd, hr, ha, hc⟩ | ⟨hd, hr, ha, hc, h0⟩
            · rcases Nat.lt_or_ge w.refs 2 with h2 | h2
              · have h1 : w.refs = 1 := by
                  simp only [World.refs, World.pointing] at *
                  omega
                have hrel := release_spec_one w.obj (by omega)
                constructor
                · right
                  refine ⟨?_, ?_, ?_, ?_, ?_⟩ <;>
                    simp [World.step, if_neg hij, hsrc, hold, hrel, hd, hr,
                      World.refs, World.pointing, hcount] <;>
                    (simp only [World.refs, World.pointing] at h1; omega)
                · simp [World.step, if_neg hij, hsrc, hold, hrel, World.refs,
                    World.pointing]
                  simp only [World.refs, World.pointing] at *
                  omega
              · have hrel := release_spec_big w.obj (by omega)
                constructor
                · left
                  refine ⟨?_, ?_, ?_, ?_⟩ <;>
                    simp [World.step, if_neg hij, hsrc, hold, hrel, hd, hr, ha,
                      World.refs, World.pointing, hcount] <;>
                    (simp only [World.refs, World.pointing] at hc h2; omega)
                · simp [World.step, if_neg hij, hsrc, hold, hrel, World.refs,
                    World.pointing]
                  simp only [World.refs, World.pointing] at *
                  omega
            · exfalso
              simp only [World.refs, World.pointing] at h0
              omega
    | true =>
        have hPsrc : 1 ≤ countTrue w.handles := nthB_true_le_countTrue _ _ hsrc
        rcases hInv with ⟨hd, hr, ha, hc⟩ | ⟨hd, hr, ha, hc, h0⟩
        · have hcadd : w.obj.counter + 1 < W := by omega
          have hinc := add_ref_spec w.obj hcadd
          have hcount := countTrue_setB w.handles i true hleni
          cases hold : nthB w.handles i with
          | false =>
              simp [hold] at hcount
              constructor
              · left
                refine ⟨?_, ?_, ?_, ?_⟩ <;>
                  simp [World.step, if_neg hij, hsrc, hold, hinc, World.refs,
                    World.pointing, hd, hr, ha, hcount] <;>
                  (simp only [World.refs, World.pointing] at hc; omega)
              · simp [World.step, if_neg hij, hsrc, hold, hinc, World.refs,
                  World.pointing]
                simp only [World.refs, World.pointing] at *
                omega
          | true =>
              simp [hold] at hcount
              have hPold : 1 ≤ countTrue w.handles := nthB_true_le_countTrue _ _ hold
              have hrel : intrusive_ptr_release (intrusive_ptr_add_ref w.obj)
                  = { w.obj with counter := w.obj.counter } := by
                rw [hinc]
                have h2 : 2 ≤ w.obj.counter + 1 := by
                  simp only [World.refs, World.pointing] at hc
                  omega
                rw [release_spec_big _ h2]
                simp
              constructor
              · left
                refine ⟨?_, ?_, ?_, ?_⟩ <;>
                  simp [World.step, if_neg hij, hsrc, hold, hrel, World.refs,
                    World.pointing, hd, hr, ha, hcount] <;>
                  (simp only [World.refs, World.pointing] at hc; omega)
              · simp [World.step, if_neg hij, hsrc, hold, hrel, World.refs,
                  World.pointing]
                simp only [World.refs, World.pointing] at *
                omega
        · exfalso
          simp only [World.refs, World.pointing] at h0
          omega

theorem step_inv_assignMove (w : World) (i j : Nat) (hInv : w.Inv)
    (hwf : w.wfOp (Op.assignMove i j) = true) (hroom : w.refs + 1 < W) :
    (w.step (Op.assignMove i j)).Inv ∧
      (w.step (Op.assignMove i j)).refs ≤ w.refs + 1 := by
  simp only [World.wfOp, Bool.and_eq_true, decide_eq_true_eq] at hwf
  obtain ⟨hleni, hlenj⟩ := hwf
  by_cases hij : i = j
  · simp only [World.step, if_pos hij]
    exact ⟨hInv, by omega⟩
  · have hcount1 := countTrue_setB w.handles j false hlenj
    have hleni2 : i < (setB w.handles j false).length := by
      rw [length_setB]; exact hleni
    have hnth2 : nthB (setB w.handles j false) i = nthB w.handles i :=
      nthB_setB_ne w.handles i j false hij
    cases hsrc : nthB w.handles j with
    | false =>
        simp [hsrc] at hcount1
        cases hold : nthB w.handles i with
        | false =>
            have hcount2 := countTrue_setB (setB w.handles j false) i false hleni2
            simp [hnth2, hold] at hcount2
            constructor
            · rcases hInv with ⟨hd, hr, ha, hc⟩ | ⟨hd, hr, ha, hc, h0⟩
              · left
                refine ⟨?_, ?_, ?_, ?_⟩ <;>
                  simp [World.step, if_neg hij, hsrc, hold, World.refs,
                    World.pointing, hd, hr, ha, hcount1, hcount2] <;>
                  (simp only [World.refs, World.pointing] at hc; omega)
              · right
                refine ⟨?_, ?_, ?_, ?_, ?_⟩ <;>
                  simp [World.step, if_neg hij, hsrc, hold, World.refs,
                    World.pointing, hd, hr, ha, hc, hcount1, hcount2] <;>
                  (simp only [World.refs, World.pointing] at h0; omega)
            · simp [World.step, if_neg hij, hsrc, hold, World.refs, World.pointing,
                hcount1, hcount2] <;>
                (simp only [World.refs, World.pointing] at *; omega)
        | true =>
            have hcount2 := countTrue_setB (setB w.handles j false) i false hleni2
            simp [hnth2, hold] at hcount2
            have hP : 1 ≤ countTrue w.handles := nthB_true_le_countTrue _ _ hold
            rcases hInv with ⟨hd, hr, ha, hc⟩ | ⟨hd, hr, ha, hc, h0⟩
            · rcases Nat.lt_or_ge w.refs 2 with h2 | h2
              · have h1 : w.refs = 1 := by
                  simp only [World.refs, World.pointing] at *
                  omega
                have hrel := release_spec_one w.obj (by omega)
                constructor
                · right
                  refine ⟨?_, ?_, ?_, ?_, ?_⟩ <;>
                    simp [World.step, if_neg hij, hsrc, hold, hrel, hd, hr,
                      World.refs, World.pointing, hcount1, hcount2] <;>
                    (simp only [World.refs, World.pointing] at h1; omega)
                · simp [World.step, if_neg hij, hsrc, hold, hrel, World.refs,
                    World.pointing, hcount1, hcount2] <;>
                    (simp only [World.refs, World.pointing] at *; omega)
              · have hrel := release_spec_big w.obj (by omega)
                constructor
                · left
                  refine ⟨?_, ?_, ?_, ?_⟩ <;>
                    simp [World.step, if_neg hij, hsrc, hold, hrel, hd, hr, ha,
                      World.refs, World.pointing, hcount1, hcount2] <;>
                    (simp only [World.refs, World.pointing] at hc h2; omega)
                · simp [World.step, if_neg hij, hsrc, hold, hrel, World.refs,
                    World.pointing, hcount1, hcount2] <;>
                    (simp only [World.refs, World.pointing] at *; omega)
            · exfalso
              simp only [World.refs, World.pointing] at h0
              omega
    | true =>
        simp [hsrc] at hcount1
        have hPsrc : 1 ≤ countTrue w.handles := nthB_true_le_countTrue _ _ hsrc
        cases hold : nthB w.handles i with
        | false =>
            have hcount2 := countTrue_setB (setB w.handles j false) i true hleni2
            simp [hnth2, hold] at hcount2
            constructor
            · rcases hInv with ⟨hd, hr, ha, hc⟩ | ⟨hd, hr, ha, hc, h0⟩
              · left
                refine ⟨?_, ?_, ?_, ?_⟩ <;>
                  simp [World.step, if_neg hij, hsrc, hold, World.refs,
                    World.pointing, hd, hr, ha, hcount1, hcount2] <;>
                  (simp only [World.refs, World.pointing] at hc; omega)
              · exfalso
                simp only [World.refs, World.pointing] at h0
                omega
            · simp [World.step, if_neg hij, hsrc, hold, World.refs, World.pointing,
                hcount1, hcount2] <;>
                (simp only [World.refs, World.pointing] at *; omega)
        | true =>
            have hcount2 := countTrue_setB (setB w.handles j false) i true hleni2
            simp [hnth2, hold] at hcount2
            have hPold : 1 ≤ countTrue w.handles := nthB_true_le_countTrue _ _ hold
            rcases hInv with ⟨hd, hr, ha, hc⟩ | ⟨hd, hr, ha, hc, h0⟩
            · rcases Nat.lt_or_ge w.refs 2 with h2 | h2
              · -- src and old point from distinct slots: at least two references
                exfalso
                have hcnt := countTrue_setB w.handles i false hleni
                simp [hold] at hcnt
                have hj : nthB (setB w.handles i false) j = nthB w.handles j :=
                  nthB_setB_ne w.handles j i false (fun hji => hij hji.symm)
                have h1 : 1 ≤ countTrue (setB w.handles i false) :=
                  nthB_true_le_countTrue _ j (by rw [hj]; exact hsrc)
                simp only [World.refs, World.pointing] at h2
                omega
              · have hrel := release_spec_big w.obj (by omega)
                constructor
                · left
                  refine ⟨?_, ?_, ?_, ?_⟩ <;>
                    simp [World.step, if_neg hij, hsrc, hold, hrel, hd, hr, ha,
                      World.refs, World.pointing, hcount1, hcount2] <;>
                    (simp only [World.refs, World.pointing] at hc h2; omega)
                · simp [World.step, if_neg hij, hsrc, hold, hrel, World.refs,
                    World.pointing, hcount1, hcount2] <;>
                    (simp only [World.refs, World.pointing] at *; omega)
            · exfalso
              simp only [World.refs, World.pointing] at h0
              omega

theorem step_inv (w : World) (op : Op) (hInv : w.Inv) (hwf : w.wfOp op = true)
    (hroom : w.refs + 1 < W) :
    (w.step op).Inv ∧ (w.step op).refs ≤ w.refs + 1 := by
  cases op with
  | newHandle => exact step_inv_newHandle w hInv hwf hroom
  | adopt => exact step_inv_adopt w hInv hwf hroom
  | copyFrom i => exact step_inv_copyFrom w i hInv hwf hroom
  | moveFrom i => exact step_inv_moveFrom w i hInv hwf hroom
  | assignCopy i j => exact step_inv_assignCopy w i j hInv hwf hroom
  | assignMove i j => exact step_inv_assignMove w i j hInv hwf hroom
  | reset i => exact step_inv_reset w i hInv hwf hroom
  | resetObj i => exact step_inv_resetObj w i hInv hwf hroom
  | detach i => exact step_inv_detach w i hInv hwf hroom
  | destroy i => exact step_inv_destroy w i hInv hwf hroom

theorem exec_inv (ops : List Op) (w : World) (hInv : w.Inv)
    (hwf : w.wfSeq ops = true) (hroom : w.refs + ops.length < W) :
    (w.exec ops).Inv ∧ (w.exec ops).refs ≤ w.refs + ops.length := by
  induction ops generalizing w with
  | nil => exact ⟨hInv, by simp [World.exec]⟩
  | cons op rest ih =>
      simp only [World.wfSeq, Bool.and_eq_true] at hwf
      obtain ⟨hop, hrest⟩ := hwf
      simp only [List.length_cons] at hroom
      have hroom1 : w.refs + 1 < W := by omega
      obtain ⟨hInv1, hle⟩ := step_inv w op hInv hop hroom1
      have hroom2 : (w.step op).refs + rest.length < W := by omega
      obtain ⟨hI, hL⟩ := ih (w.step op) hInv1 hrest hroom2
      refine ⟨by simpa [World.exec] using hI, ?_⟩
      simp only [World.exec, List.length_cons]
      omega

theorem exec_append (w : World) (l1 l2 : List Op) :
    w.exec (l1 ++ l2) = (w.exec l1).exec l2 := by
  induction l1 generalizing w with
  | nil => simp [World.exec]
  | cons op rest ih => simp [World.exec, ih]

/-! ### Exact execution of the copy-then-tear-down scripts -/

theorem nthB_append_left (l1 l2 : List Bool) (i : Nat) (h : i < l1.length) :
    nthB (l1 ++ l2) i = nthB l1 i := by
  induction l1 generalizing i with
  | nil => simp at h
  | cons a t ih =>
      cases i with
      | zero => rfl
      | succ i => exact ih i (by simpa using h)

theorem nthB_replicate_true (m i : Nat) (h : i < m) :
    nthB (List.replicate m true) i = true := by
  induction m generalizing i with
  | zero => omega
  | succ m ih =>
      cases i with
      | zero => rfl
      | succ i =>
          rw [List.replicate_succ]
          exact ih i (by omega)

theorem setB_replicate_true_last (m : Nat) (rest : List Bool) :
    setB (List.replicate (m + 1) true ++ rest) m false
      = List.replicate m true ++ (false :: rest) := by
  induction m with
  | zero => simp [List.replicate, setB]
  | succ m ih =>
      rw [List.replicate_succ, List.replicate_succ]
      simpa [setB] using ih

theorem countTrue_replicate_true (m : Nat) :
    countTrue (List.replicate m true) = m := by
  induction m with
  | zero => rfl
  | succ m ih =>
      simp [List.replicate_succ, countTrue, ih]
      omega

/-- State reached by `copyScript n` (for `n + 1` below the counter range):
`n + 1` handles all pointing at the object, counter `n + 1`. -/
theorem exec_copyScript (n : Nat) (hW : n + 1 < W) :
    World.init.exec (copyScript n)
      = { handles := List.replicate (n + 1) true,
          obj := { counter := n + 1, alive := true, destructs := 0, releases1 := 0 },
          detached := 0 } := by
  induction n with
  | zero =>
      have h1 : (0:Nat) + 1 < W := by norm_num [W]
      simp [copyScript, World.exec, World.step, World.init,
        intrusive_ref_counter.mkDefault,
        add_ref_spec { counter := 0, alive := true, destructs := 0, releases1 := 0 } h1]
  | succ n ih =>
      have hW' : n + 1 < W := by omega
      have hsplit : copyScript (n + 1) = copyScript n ++ [Op.copyFrom 0] := by
        simp [copyScript, List.replicate_succ' (n := n)]
      rw [hsplit, exec_append, ih hW']
      have hsrc : nthB (List.replicate (n + 1) true) 0 = true :=
        nthB_replicate_true (n + 1) 0 (by omega)
      have hinc := add_ref_spec
        { counter := n + 1, alive := true, destructs := 0, releases1 := 0 }
        (by simpa using hW)
      simp [World.exec, World.step, hsrc, hinc]
      rw [← List.replicate_succ' (n := n + 1)]

/-- State reached after tearing down `k ≤ n` of the copies with any
operation that steps like `destroy` (both `destroy` and `reset` do). -/
theorem exec_tearDown (d : Nat → Op)
    (hd : ∀ (w : World) (i : Nat), w.step (d i) = w.step (Op.destroy i))
    (n k : Nat) (hW : n + 1 < W) (hk : k ≤ n) :
    ({ handles := List.replicate (n + 1) true,
       obj := { counter := n + 1, alive := true, destructs := 0, releases1 := 0 },
       detached := 0 } : World).exec (tearDown d n k)
      = { handles := List.replicate (n + 1 - k) true ++ List.replicate k false,
          obj := { counter := n + 1 - k, alive := true, destructs := 0, releases1 := 0 },
          detached := 0 } := by
  induction k with
  | zero => simp [tearDown, World.exec]
  | succ k ih =>
      have hk' : k ≤ n := by omega
      have hsplit : tearDown d n (k + 1) = tearDown d n k ++ [d (n - k)] := by
        simp [tearDown, List.range_succ]
      rw [hsplit, exec_append, ih hk']
      have harith : n + 1 - k = (n - k) + 1 := by omega
      have hold : nthB (List.replicate (n + 1 - k) true ++ List.replicate k false)
          (n - k) = true := by
        rw [nthB_append_left _ _ _ (by simp; omega)]
        exact nthB_replicate_true _ _ (by omega)
      have hrel := release_spec_big
        { counter := n + 1 - k, alive := true, destructs := 0, releases1 := 0 }
        (by simp; omega)
      have hset : setB (List.replicate (n + 1 - k) true ++ List.replicate k false)
          (n - k) false
          = List.replicate (n - k) true ++ List.replicate (k + 1) false := by
        rw [harith, setB_replicate_true_last, List.replicate_succ]
      rw [World.exec, World.exec, hd]
      simp only [World.step, hold, ite_true, hrel, hset]
      have harith2 : n + 1 - (k + 1) = n - k := by omega
      simp [harith2]
      omega

/-! ### Claim theorems -/

/-- C1: `intrusive_ptr_release(p)` first decrements the counter (via
`dec()`, whose first component is the pre-decrement value); it deletes the
object — running the Derived destructor (`alive := false`,
`destructs + 1`) — exactly when that pre-decrement value is 1, and
otherwise only performs the unsigned decrement, leaving the object alive
and all other fields untouched. -/
theorem release_decrements_then_deletes_iff_pre_is_one (s : ObjState) :
    (s.dec).1 = s.counter ∧
    intrusive_ptr_release s =
      (if s.counter = 1 then
        { counter := 0, alive := false, destructs := s.destructs + 1,
          releases1 := s.releases1 + 1 }
      else
        { s with counter := if s.counter = 0 then W - 1 else s.counter - 1 }) := by
  refine ⟨rfl, ?_⟩
  by_cases h1 : s.counter = 1
  · rw [if_pos h1, release_spec_one s h1]
  · rw [if_neg h1]
    simp only [intrusive_ptr_release, ObjState.dec]
    rw [if_neg h1]

/-- C3: the mixin's counter is 0 right after default construction, 0 right
after copy construction (never copied from the source), and copy
assignment of the mixin changes neither the assignee nor the source. -/
theorem counter_zero_after_construction_and_assign_noop (s dst src : ObjState) :
    intrusive_ref_counter.mkDefault.use_count = 0 ∧
    (intrusive_ref_counter.copyCtor s).use_count = 0 ∧
    intrusive_ref_counter.copyAssign dst src = (dst, src) :=
  ⟨rfl, rfl, rfl⟩

/-- C10: releasing an object whose counter is 0 does not delete it (the
pre-decrement value 0 is not 1): `alive` and `destructs` are unchanged and
the unsigned counter wraps around to its maximum value `2^32 - 1`. -/
theorem release_on_zero_count_wraps_to_max (s : ObjState) (h : s.counter = 0) :
    intrusive_ptr_release s = { s with counter := 2 ^ 32 - 1 } ∧
    (intrusive_ptr_release s).alive = s.alive ∧
    (intrusive_ptr_release s).destructs = s.destructs ∧
    (intrusive_ptr_release s).use_count = W - 1 := by
  have h1 : intrusive_ptr_release s = { s with counter := 2 ^ 32 - 1 } := by
    simp only [intrusive_ptr_release, ObjState.dec, h]
    norm_num [W]
  exact ⟨h1, by rw [h1], by rw [h1], by rw [h1]; rfl⟩

/-- Witness for C10: releasing a freshly constructed object (counter 0)
leaves it alive and wraps the counter to `2^32 - 1 = 4294967295`. -/
theorem release_on_zero_count_wraps_to_max_witness :
    intrusive_ptr_release intrusive_ref_counter.mkDefault
      = { intrusive_ref_counter.mkDefault with counter := 2 ^ 32 - 1 } :=
  (release_on_zero_count_wraps_to_max intrusive_ref_counter.mkDefault rfl).1

/-- C4: constructing a handle from a raw pointer `p` with flag `add_ref`
stores `p` as the handle's address, and increments the pointee's count by
one (modulo `2^32`) exactly when `add_ref` is true and `p` is non-null;
in every other case, and at every other address, the memory — count,
liveness and destructor history — is untouched. -/
theorem raw_ctor_stores_pointer_and_increments_iff_addref_nonnull
    (p : Ptr) (b : Bool) (m : Mem) :
    (intrusive_ptr.mkRaw p b m).1.obj_pointer = p ∧
    (∀ x : Addr, ((intrusive_ptr.mkRaw p b m).2 x).use_count =
      (if b = true ∧ p = some x then ((m x).use_count + 1) % W
       else (m x).use_count)) ∧
    (∀ x : Addr, ((intrusive_ptr.mkRaw p b m).2 x).alive = (m x).alive ∧
      ((intrusive_ptr.mkRaw p b m).2 x).destructs = (m x).destructs) := by
  cases b with
  | false =>
      cases p <;> exact ⟨rfl, fun x => by simp [intrusive_ptr.mkRaw], fun x => ⟨rfl, rfl⟩⟩
  | true =>
      cases p with
      | none => exact ⟨rfl, fun x => by simp [intrusive_ptr.mkRaw], fun x => ⟨rfl, rfl⟩⟩
      | some a =>
          refine ⟨rfl, fun x => ?_, fun x => ?_⟩
          · simp only [intrusive_ptr.mkRaw, intrusive_ptr_add_ref_at, Mem.updateAt]
            by_cases hx : x = a
            · subst hx
              simp [intrusive_ptr_add_ref, ObjState.inc, ObjState.use_count]
            · simp [hx, Ne.symm hx]
          · constructor <;>
            · simp only [intrusive_ptr.mkRaw, intrusive_ptr_add_ref_at,
                Mem.updateAt, intrusive_ptr_add_ref, ObjState.inc]
              split <;> rfl

/-- C5: move construction transfers the source's stored address to the new
handle, nulls the source, and touches no counter: the memory is returned
exactly as given, so every object's `use_count()` is unchanged. -/
theorem move_ctor_transfers_pointer_no_counter_effect (r : intrusive_ptr) (m : Mem) :
    (intrusive_ptr.moveCtor r m).1.1.obj_pointer = r.obj_pointer ∧
    (intrusive_ptr.moveCtor r m).1.2.obj_pointer = none ∧
    (intrusive_ptr.moveCtor r m).2 = m ∧
    (∀ x : Addr, (((intrusive_ptr.moveCtor r m).2) x).use_count = (m x).use_count) :=
  ⟨rfl, rfl, rfl, fun _ => rfl⟩

/-- C6: self-assignment (the `this == &r` case of both `operator=` forms)
changes nothing: in the memory model the handle and the whole memory are
returned unchanged, and in the slot model assigning slot `i` to itself is
the identity on the world — so `get()` and `use_count()` are unchanged. -/
theorem self_assignment_leaves_handle_and_count_unchanged
    (h : intrusive_ptr) (m : Mem) (w : World) (i : Nat) :
    intrusive_ptr.assignCopy true h h m = (h, m) ∧
    intrusive_ptr.assignMove true h h m = ((h, h), m) ∧
    w.step (Op.assignCopy i i) = w ∧
    w.step (Op.assignMove i i) = w :=
  ⟨rfl, rfl, by simp [World.step], by simp [World.step]⟩

/-- C7: wrapping a raw address in a handle with `add_ref = false` and then
calling `detach()` yields back exactly that address, leaves the handle
null, and performs no counter operation at any point (the construction
returns the memory unchanged, and `detach` does not touch memory at all). -/
theorem adopt_without_addref_then_detach_roundtrip (a : Addr) (m : Mem) :
    ((intrusive_ptr.mkRaw (some a) false m).1.detach).1 = some a ∧
    ((intrusive_ptr.mkRaw (some a) false m).1.detach).2.obj_pointer = none ∧
    (intrusive_ptr.mkRaw (some a) false m).2 = m :=
  ⟨rfl, rfl, rfl⟩

/-- C2: along any well-formed sequence of handle operations on one counted
object (at most `2^32 - 1` of them, so the counter cannot overflow), the
object's destructor runs at most once, and the number of destructor runs
always equals the number of releases that observed a pre-decrement count
of 1 — no other operation ever destroys the object. -/
theorem destructor_at_most_once_and_only_on_release_observing_one
    (ops : List Op) (hwf : World.init.wfSeq ops = true) (hlen : ops.length < W) :
    (World.init.exec ops).obj.destructs ≤ 1 ∧
    (World.init.exec ops).obj.destructs = (World.init.exec ops).obj.releases1 := by
  have hInv : World.init.Inv := by
    left
    refine ⟨rfl, rfl, rfl, ?_⟩
    simp [World.init, World.refs, World.pointing, countTrue,
      intrusive_ref_counter.mkDefault]
  have hroom : World.init.refs + ops.length < W := by
    have : World.init.refs = 0 := by
      simp [World.init, World.refs, World.pointing, countTrue]
    omega
  obtain ⟨hI, _⟩ := exec_inv ops World.init hInv hwf hroom
  rcases hI with ⟨hd, hr, _, _⟩ | ⟨hd, hr, _, _, _⟩
  · rw [hd, hr]
    exact ⟨by omega, rfl⟩
  · rw [hd, hr]
    exact ⟨by omega, rfl⟩

/-- Witness for C2: create a handle, copy it, destroy both; the destructor
runs (and it runs at most once, matching the one release that observed 1). -/
theorem destructor_at_most_once_witness :
    (World.init.exec [Op.newHandle, Op.copyFrom 0, Op.destroy 1, Op.destroy 0]).obj.destructs ≤ 1 ∧
    (World.init.exec [Op.newHandle, Op.copyFrom 0, Op.destroy 1, Op.destroy 0]).obj.destructs
      = (World.init.exec [Op.newHandle, Op.copyFrom 0, Op.destroy 1, Op.destroy 0]).obj.releases1 :=
  destructor_at_most_once_and_only_on_release_observing_one
    [Op.newHandle, Op.copyFrom 0, Op.destroy 1, Op.destroy 0] (by decide) (by decide)

/-- C8: after taking `n` copies from one handle on a fresh object,
`use_count()` is `n + 1`; tearing down `k ≤ n` of the copies — whether by
destroying them or by resetting them — lowers it by one each, to
`n + 1 - k`. -/
theorem n_copies_use_count_and_teardown (n k : Nat) (hW : n + 1 < W) (hk : k ≤ n) :
    (World.init.exec (copyScript n)).obj.use_count = n + 1 ∧
    (World.init.exec (copyScript n ++ tearDown Op.destroy n k)).obj.use_count
      = n + 1 - k ∧
    (World.init.exec (copyScript n ++ tearDown Op.reset n k)).obj.use_count
      = n + 1 - k := by
  have h1 := exec_copyScript n hW
  refine ⟨by rw [h1]; rfl, ?_, ?_⟩
  · rw [exec_append, h1, exec_tearDown Op.destroy (fun _ _ => rfl) n k hW hk]
    rfl
  · rw [exec_append, h1,
      exec_tearDown Op.reset (fun w i => step_reset_eq_destroy w i) n k hW hk]
    rfl

/-- Witness for C8 at `n = 2`, `k = 1`: two copies give count 3; destroying
or resetting one copy gives count 2. -/
theorem n_copies_use_count_and_teardown_witness :
    (World.init.exec (copyScript 2)).obj.use_count = 3 ∧
    (World.init.exec (copyScript 2 ++ tearDown Op.destroy 2 1)).obj.use_count = 2 ∧
    (World.init.exec (copyScript 2 ++ tearDown Op.reset 2 1)).obj.use_count = 2 :=
  n_copies_use_count_and_teardown 2 1 (by decide) (by decide)

/-- A release immediately after an add_ref restores the object exactly,
whenever the counter was in range and at least 1 beforehand: the transient
increment guarantees the release cannot observe a pre-decrement value of 1. -/
theorem release_after_add_ref_cancels (s : ObjState)
    (hpos : 1 ≤ s.counter) (hlt : s.counter < W) :
    intrusive_ptr_release (intrusive_ptr_add_ref s) = s := by
  rcases Nat.lt_or_ge (s.counter + 1) W with hW | hW
  · rw [add_ref_spec s hW, release_spec_big _ (by simp; omega)]
    simp
  · have hc : s.counter = W - 1 := by
      have hWpos : (0:Nat) < W := by norm_num [W]
      omega
    have hinc : intrusive_ptr_add_ref s = { s with counter := 0 } := by
      simp only [intrusive_ptr_add_ref, ObjState.inc, hc]
      rw [Nat.sub_add_cancel (by norm_num [W] : 1 ≤ W), Nat.mod_self]
    rw [hinc]
    simp only [intrusive_ptr_release, ObjState.dec]
    norm_num
    rw [← hc]

theorem release_at_after_add_ref_at_cancels (m : Mem) (a : Addr)
    (hpos : 1 ≤ (m a).counter) (hlt : (m a).counter < W) :
    intrusive_ptr_release_at (intrusive_ptr_add_ref_at m a) a = m := by
  funext x
  simp only [intrusive_ptr_release_at, intrusive_ptr_add_ref_at, Mem.updateAt]
  by_cases hx : x = a
  · subst hx
    simp [release_after_add_ref_cancels (m x) hpos hlt]
  · rw [if_neg hx, if_neg hx]

/-- C9: when a handle already holds the non-null pointer `a` and the
object's count is positive (and in range), `reset(p)` with that same
pointer — and likewise the raw-pointer assignment — returns the handle and
the whole memory unchanged: `get()` and `use_count()` are preserved and
the object is never destroyed, because the temporary's add_ref runs before
the old reference is released. -/
theorem reset_to_already_held_pointer_is_noop (h : intrusive_ptr) (a : Addr)
    (m : Mem) (hp : h.obj_pointer = some a)
    (hpos : 1 ≤ (m a).use_count) (hlt : (m a).use_count < W) :
    h.resetPtr (some a) m = (h, m) ∧ h.assignPtr (some a) m = (h, m) := by
  cases h with
  | mk op =>
      have hop : op = some a := hp
      subst hop
      have hm := release_at_after_add_ref_at_cancels m a hpos hlt
      constructor
      · show (⟨some a⟩, intrusive_ptr_release_at (intrusive_ptr_add_ref_at m a) a)
          = ((⟨some a⟩ : intrusive_ptr), m)
        rw [hm]
      · show (⟨some a⟩, intrusive_ptr_release_at (intrusive_ptr_add_ref_at m a) a)
          = ((⟨some a⟩ : intrusive_ptr), m)
        rw [hm]

/-- Witness for C9: a handle on address 0 with count 1; `reset(p)` with the
same pointer and the raw-pointer assignment both leave handle and memory
unchanged even though the count was 1. -/
theorem reset_to_already_held_pointer_is_noop_witness :
    (⟨some 0⟩ : intrusive_ptr).resetPtr (some 0)
        (fun _ => { counter := 1, alive := true, destructs := 0, releases1 := 0 })
      = (⟨some 0⟩, fun _ => { counter := 1, alive := true, destructs := 0, releases1 := 0 }) ∧
    (⟨some 0⟩ : intrusive_ptr).assignPtr (some 0)
        (fun _ => { counter := 1, alive := true, destructs := 0, releases1 := 0 })
      = (⟨some 0⟩, fun _ => { counter := 1, alive := true, destructs := 0, releases1 := 0 }) :=
  reset_to_already_held_pointer_is_noop ⟨some 0⟩ 0
    (fun _ => { counter := 1, alive := true, destructs := 0, releases1 := 0 })
    rfl (by decide) (by decide)
